import Mathlib

/-
Verification of the go-graph library (github.com/pasataleo/go-graph).

This file shallowly embeds the graph data model (graph.go), the cycle
detector (validate.go), and the walker engines (walk.go, walker.go) in
Lean 4 and proves properties of the embedding.

Modelling conventions:
* Go maps become association lists `List (String × α)`; `ainsert` is
  `m[k] = v`, `alookup` is `m[k]`, `List.erase` is `delete(m, k)`.
  Go map iteration order is nondeterministic, so functions whose result
  depends on it take the iteration order as an explicit parameter, or
  use the association-list order for one fixed admissible schedule.
* Go's unbounded recursion gets an explicit fuel parameter.
* User node bodies (Execute / Expand) are a parameter `Env`: for each
  key, the result of its body.
* The concurrent walker (walker.go) is modelled two ways: a small-step
  relation `WStep` whose steps are the coordinator's three outcome
  handlers (one per channel case of walker.Walk), quantifying over all
  interleavings, and a deterministic interpreter `walkerRun` executing
  the serial (parallelism-1 equivalent) schedule.
-/

namespace GoGraph

/-! ## Association-list primitives standing in for Go maps -/

/-- Go `m[key]`: first binding of `key` in the association list. -/
def alookup {α : Type} : List (String × α) → String → Option α
  | [], _ => none
  | (k, v) :: rest, key => if k = key then some v else alookup rest key

/-- Go `m[key]` with a default for a missing key (Go returns the zero value). -/
def alookupD {α : Type} (l : List (String × α)) (key : String) (d : α) : α :=
  (alookup l key).getD d

/-- Go `m[key] = v`: replace the binding in place, or append a new one. -/
def ainsert {α : Type} : List (String × α) → String → α → List (String × α)
  | [], key, v => [(key, v)]
  | (k, w) :: rest, key, v =>
    if k = key then (key, v) :: rest else (k, w) :: ainsert rest key v

/-- Go `m[key] = f(m[key])` for a key already present (no-op when absent). -/
def amodify {α : Type} : List (String × α) → String → (α → α) → List (String × α)
  | [], _, _ => []
  | (k, w) :: rest, key, f =>
    if k = key then (k, f w) :: rest else (k, w) :: amodify rest key f

/-- Go `set[key] = true` on a map used as a set. -/
def insertSet (key : String) (l : List String) : List String :=
  if key ∈ l then l else l ++ [key]

/-- Keys of an association list, in list order. -/
def keysOf {α : Type} (l : List (String × α)) : List String :=
  l.map Prod.fst

/-- Go `for key, node := range src { dst[key] = node }`. -/
def splice {α : Type} (base src : List (String × α)) : List (String × α) :=
  src.foldl (fun acc p => ainsert acc p.1 p.2) base

/-! ## Data model (graph.go)

`node` carries `parents` and `children` in insertion order.  The `impl`
field of the Go node is a runtime interface value; the two constructors
the library offers (`Executable`, `Expandable`) make it satisfy exactly
one of the two capability interfaces, which we record as a tag.  The
user-supplied function inside the impl is factored out into `Env`. -/

inductive NodeKind where
  | exec
  | expand
deriving DecidableEq, Repr

structure Node where
  impl : NodeKind
  parents : List String
  children : List String
deriving DecidableEq, Repr

/-- Graph from graph.go: node map plus the maintained starter/finisher sets. -/
structure GraphData where
  nodes : List (String × Node)
  starters : List String
  finishers : List String
deriving DecidableEq, Repr

def emptyGraphData : GraphData := ⟨[], [], []⟩

/-- Graph.AddNode (graph.go): stores a fresh node under `key` (silently
overwriting any existing binding) and unconditionally adds `key` to both
`starters` and `finishers`.  The Go code panics when `impl` implements
neither capability; the two capability branches perform the identical
state change, recorded here with the capability tag. -/
def addNode (g : GraphData) (key : String) (impl : NodeKind) : GraphData :=
  { nodes := ainsert g.nodes key { impl := impl, parents := [], children := [] },
    starters := insertSet key g.starters,
    finishers := insertSet key g.finishers }

/-- Graph.Connect (graph.go): appends `dst` to `src.children` and `src` to
`dst.parents`, then removes `dst` from `starters` and `src` from
`finishers`.  The Go code panics on a self-loop or a missing endpoint;
those branches are modelled as leaving the graph unchanged. -/
def connect (g : GraphData) (src dst : String) : GraphData :=
  if src = dst then g
  else if (alookup g.nodes src).isNone then g
  else if (alookup g.nodes dst).isNone then g
  else
    { nodes :=
        amodify
          (amodify g.nodes src (fun n => { n with children := n.children ++ [dst] }))
          dst (fun n => { n with parents := n.parents ++ [src] }),
      starters := g.starters.erase dst,
      finishers := g.finishers.erase src }

/-- Children list of `key` in a node map (`nodes[key].children`; a missing
key yields `[]` where Go would dereference a nil pointer). -/
def childrenOf (nodes : List (String × Node)) (key : String) : List String :=
  match alookup nodes key with
  | some n => n.children
  | none => []

/-- Parents list of `key` in a node map (`nodes[key].parents`). -/
def parentsOf (nodes : List (String × Node)) (key : String) : List String :=
  match alookup nodes key with
  | some n => n.parents
  | none => []

/-! ## Validator (validate.go) -/

/-- Lexicographic comparison of strings by code points, standing in for
Go's `<` on strings inside `sort.SliceStable`. -/
def charListLe : List Char → List Char → Bool
  | [], _ => true
  | _ :: _, [] => false
  | c :: cs, d :: ds =>
    if c.toNat < d.toNat then true
    else if d.toNat < c.toNat then false
    else charListLe cs ds

def strLe (a b : String) : Bool := charListLe a.data b.data

def insertSorted (x : String) : List String → List String
  | [] => [x]
  | y :: ys => if strLe x y then x :: y :: ys else y :: insertSorted x ys

/-- Stable lexicographic sort used for the starters/finishers slices
(`sort.SliceStable` in validate.go). -/
def sortKeys (l : List String) : List String :=
  l.foldr insertSorted []

/-- First index at which `key` occurs in `path`: the `for ix, ancestor :=
range path` scan at the top of Graph.dfs. -/
def firstIdx (path : List String) (key : String) : Option Nat :=
  match path with
  | [] => none
  | a :: rest =>
    if a = key then some 0
    else (firstIdx rest key).map Nat.succ

/-- Graph.dfs (validate.go): if `current` occurs in `path`, fail with the
cycle message built from the suffix of `path` starting at the first
occurrence, followed by `current`, joined by " -> "; if `current` is
already visited, succeed; otherwise mark it visited, push it on the path
and recurse into its children in list order, threading the shared
visited set and keeping the first error (the Go loop returns at the
first error; iterations after an error are no-ops here).  `fuel` bounds
the recursion depth (the Go recursion is unbounded but terminates on
finite graphs). -/
def dfsRun (g : GraphData) : Nat → String → List String → List String →
    Except String (List String)
  | 0, _, visited, _ => Except.ok visited
  | fuel + 1, current, visited, path =>
    match firstIdx path current with
    | some ix =>
      Except.error
        ("found cycle in graph: " ++
          String.intercalate " -> " (path.drop ix ++ [current]))
    | none =>
      if current ∈ visited then Except.ok visited
      else
        (childrenOf g.nodes current).foldl
          (fun acc c => Except.bind acc (fun v => dfsRun g fuel c v (path ++ [current])))
          (Except.ok (current :: visited))

/-- Recursion-depth bound sufficient for Graph.dfs: the DFS path holds
distinct unvisited-at-push keys, so its length never exceeds the node
count before the cycle check fires. -/
def dfsFuel (g : GraphData) : Nat := g.nodes.length + 1

/-- The `for key, node := range g.nodes` loop of Graph.validate: collect
starters and finishers in iteration order and run the DFS from every key
with the shared visited set, stopping at the first cycle error.  `order`
is the Go map iteration order, which Go randomises. -/
def validateGo (g : GraphData) :
    List String → List String → List String → List String →
    Except String (List String × List String)
  | [], starters, finishers, _ =>
    Except.ok (sortKeys starters, sortKeys finishers)
  | key :: rest, starters, finishers, visited =>
    match alookup g.nodes key with
    | none => validateGo g rest starters finishers visited
    | some n =>
      let starters := if n.parents = [] then starters ++ [key] else starters
      let finishers := if n.children = [] then finishers ++ [key] else finishers
      match dfsRun g (dfsFuel g) key visited [] with
      | Except.error e => Except.error e
      | Except.ok visited' => validateGo g rest starters finishers visited'

/-- Graph.validate (validate.go) run under map iteration order `order`:
returns the lexicographically sorted starters and finishers, or the
first cycle error encountered.  The duplicated node map the Go function
also returns is the identity in this embedding. -/
def validateRun (g : GraphData) (order : List String) :
    Except String (List String × List String) :=
  validateGo g order [] [] []

/-! ## Errors (errors.go plus the go-errors combinators used by the walker) -/

/-- Errors surfaced by the walker: `failedNode` is the FailedNode error a
worker builds around a node body's error (key embedded via NodeKey);
`incompleteGraph` is the IncompleteGraph error with its three embedded
counts; `plain` is a plain `fmt.Errorf` string; `multi` is the
go-errors multi-error. -/
inductive GoErr where
  | failedNode (key : String) (msg : String)
  | incompleteGraph (nodes completed errored : Nat)
  | plain (msg : String)
  | multi (errs : List GoErr)

/-- go-errors `errors.Append(base, e)`: accumulate `e` onto the
multi-error `base` (a nil base yields `e` itself). -/
def errAppend : Option GoErr → GoErr → GoErr
  | none, e => e
  | some (GoErr.multi es), e => GoErr.multi (es ++ [e])
  | some m, e => GoErr.multi [m, e]

mutual

/-- Whether an IncompleteGraph error occurs anywhere in the error tree. -/
def hasIncomplete : GoErr → Bool
  | GoErr.incompleteGraph _ _ _ => true
  | GoErr.multi es => hasIncompleteL es
  | _ => false

def hasIncompleteL : List GoErr → Bool
  | [] => false
  | e :: es => hasIncomplete e || hasIncompleteL es

end

mutual

/-- Whether a FailedNode error for `key` occurs anywhere in the error tree
(the membership test for the composite error). -/
def mentionsKey : GoErr → String → Bool
  | GoErr.failedNode k _, key => k = key
  | GoErr.multi es, key => mentionsKeyL es key
  | _, _ => false

def mentionsKeyL : List GoErr → String → Bool
  | [], _ => false
  | e :: es, key => mentionsKey e key || mentionsKeyL es key

end

def hasIncompleteOpt : Option GoErr → Bool
  | none => false
  | some e => hasIncomplete e

/-- The error-aggregation loop of walker.Walk (walker.go):
`for _, err := range walker.errored { multi = errors.Append(err) }`.
The accumulator is not passed to Append, which is mirrored by the `none`
first argument, so each iteration discards the previous value. -/
def walkerAggregate (errs : List (String × GoErr)) : Option GoErr :=
  errs.foldl (fun _ ke => some (errAppend none ke.2)) none

/-- The error-aggregation loop of Graph.Walk and Graph.WalkP (graph.go,
walk.go): `multi = errors.Append(multi, err)`, the cumulative append. -/
def walkAggregate (errs : List (String × GoErr)) : Option GoErr :=
  errs.foldl (fun multi ke => some (errAppend multi ke.2)) none

/-! ## Node bodies

`Env` supplies the outcome of every user node body: what
`Execute(ctx)` returns for an executable key, and what `Expand(ctx)`
returns for an expandable key. -/

structure Env where
  execRes : String → Option String
  expandRes : String → GraphData ⊕ String

/-! ## Walker state and outcome handlers (walker.go) -/

/-- Per-walk state of the walker (walker.go), plus the caller's Graph
fields (`gnodes`, `gstarters`, `gfinishers`), carried so the embedding
can state that Walk never writes to them.  `nodes` is the walker's
private copy of the node map. -/
@[ext]
structure WState where
  gnodes : List (String × Node)
  gstarters : List String
  gfinishers : List String
  nodes : List (String × Node)
  pending : List String
  processing : List String
  completed : List String
  errored : List (String × GoErr)
  subgraphStarters : List (String × List String)
  subgraphFinishers : List (String × String)

/-- walker.Errored: record the error and drop the key from processing. -/
def erroredStep (key : String) (e : GoErr) (st : WState) : WState :=
  { st with
    errored := ainsert st.errored key e,
    processing := st.processing.erase key }

/-- walker.Expand: drop the key from processing, splice the subgraph's
nodes into the walker's map, record `subgraphStarters[key] =
subgraph.Finishers()` and `subgraphFinishers[f] = key` for each finisher
`f`, and return the subgraph's starters. -/
def expandStep (key : String) (sub : GraphData) (st : WState) :
    WState × List String :=
  let st1 :=
    { st with
      processing := st.processing.erase key,
      nodes := splice st.nodes sub.nodes }
  let st2 :=
    { st1 with
      subgraphStarters := ainsert st1.subgraphStarters key sub.finishers,
      subgraphFinishers :=
        sub.finishers.foldl (fun m f => ainsert m f key) st1.subgraphFinishers }
  (st2, sub.starters)

/-- The child-readiness loop at the end of walker.Completed: the children
of `key` whose parents are all completed. -/
def readyChildren (st : WState) (key : String) : List String :=
  (childrenOf st.nodes key).filter
    (fun child =>
      (parentsOf st.nodes child).all (fun parent => decide (parent ∈ st.completed)))

/-- walker.Completed: mark the key completed and drop it from processing;
if the key finishes a subgraph whose recorded finishers are now all
completed, recursively complete the expander that produced it; otherwise
return the ready children of the key.  `fuel` bounds the promotion
recursion (bounded by the expansion-nesting depth in Go). -/
def completedAux : Nat → String → WState → WState × List String
  | 0, _, st => (st, [])
  | fuel + 1, key, st =>
    let st1 :=
      { st with
        completed := insertSet key st.completed,
        processing := st.processing.erase key }
    match alookup st1.subgraphFinishers key with
    | some starter =>
      if (alookupD st1.subgraphStarters starter []).all
          (fun f => decide (f ∈ st1.completed)) then
        completedAux fuel starter st1
      else (st1, readyChildren st1 key)
    | none => (st1, readyChildren st1 key)

/-- The `walker.pending[starter] = true` loop applied to a list of keys
returned by a handler. -/
def addPending (ks : List String) (st : WState) : WState :=
  { st with pending := ks.foldl (fun p k => insertSet k p) st.pending }

/-- walker.Process (walker.go): move every pending key into processing and
return the dispatched keys (the ones sent to the workers). -/
def processAll (st : WState) : WState × List String :=
  ({ st with pending := [], processing := st.processing ++ st.pending },
    st.pending)

/-- The `case errored` branch of the walker.Walk select loop. -/
def handleErrored (key : String) (e : GoErr) (st : WState) : WState :=
  erroredStep key e st

/-- The `case completed` branch of the walker.Walk select loop:
`pending := walker.Completed(key)` followed by marking the returned keys
pending. -/
def handleCompleted (fuel : Nat) (key : String) (st : WState) : WState :=
  let c := completedAux fuel key st
  addPending c.2 c.1

/-- The `case expanded` branch of the walker.Walk select loop:
`pending := walker.Expand(key, subgraph)`, falling back to
`walker.Completed(key)` when the subgraph has no starters, then marking
the returned keys pending. -/
def handleExpanded (fuel : Nat) (key : String) (sub : GraphData) (st : WState) :
    WState :=
  let p := expandStep key sub st
  if p.2 = [] then
    let c := completedAux fuel key p.1
    addPending c.2 c.1
  else addPending p.2 p.1

/-- The worker body (walk.go): try Execute for an executable node, Expand
for an expandable one, and report the outcome on the matching channel. -/
inductive Outcome where
  | errored (e : GoErr)
  | completed
  | expanded (sub : GraphData)

def workerOutcome (env : Env) (nodes : List (String × Node)) (key : String) :
    Outcome :=
  match alookup nodes key with
  | none => Outcome.completed
  | some n =>
    match n.impl with
    | NodeKind.exec =>
      match env.execRes key with
      | some m => Outcome.errored (GoErr.failedNode key ("failed to execute node: " ++ m))
      | none => Outcome.completed
    | NodeKind.expand =>
      match env.expandRes key with
      | Sum.inl sub => Outcome.expanded sub
      | Sum.inr m => Outcome.errored (GoErr.failedNode key ("failed to expand node: " ++ m))

/-- The state of walker.Walk right after seeding: the caller's fields
retained, the node map copied, and pending seeded from Graph.Starters(). -/
def initSeed (g : GraphData) : WState :=
  { gnodes := g.nodes,
    gstarters := g.starters,
    gfinishers := g.finishers,
    nodes := g.nodes,
    pending := g.starters,
    processing := [],
    completed := [],
    errored := [],
    subgraphStarters := [],
    subgraphFinishers := [] }

/-- walker.Walk's state after the initial `walker.Process` dispatch. -/
def initState (g : GraphData) : WState :=
  (processAll (initSeed g)).1

/-- The tail of walker.Walk: the error-aggregation loop followed by the
incomplete-graph check
`len(walker.nodes) != len(walker.completed) + len(walker.errored)`,
whose error is appended cumulatively. -/
def finalError (st : WState) : Option GoErr :=
  let multi := walkerAggregate st.errored
  if st.nodes.length = st.completed.length + st.errored.length then multi
  else
    some (errAppend none
      (errAppend multi
        (GoErr.incompleteGraph st.nodes.length st.completed.length
          st.errored.length)))

/-- The walker.Walk select loop under the serial schedule: the workers
drain the ready channel in dispatch order, so the coordinator applies
one outcome at a time for the head of `processing`.  The second
component is the trace of keys whose bodies were invoked, in order.
`fuel` bounds the number of outcomes. -/
def walkLoop (env : Env) : Nat → WState → List String → WState × List String
  | 0, st, tr => (st, tr)
  | fuel + 1, st, tr =>
    if st.pending = [] ∧ st.processing = [] then (st, tr)
    else
      match st.processing with
      | [] => (st, tr)
      | key :: _ =>
        let tr := tr ++ [key]
        match workerOutcome env st.nodes key with
        | Outcome.errored e =>
          walkLoop env fuel (processAll (handleErrored key e st)).1 tr
        | Outcome.completed =>
          walkLoop env fuel
            (processAll (handleCompleted (st.nodes.length + 1) key st)).1 tr
        | Outcome.expanded sub =>
          walkLoop env fuel
            (processAll
              (handleExpanded (st.nodes.length + sub.nodes.length + 1) key sub st)).1
            tr

/-- walker.Walk (walker.go) under the serial schedule: nil on an empty
graph; otherwise seed, dispatch, drain outcomes until pending and
processing are both empty, then aggregate.  Note the absence of any
validation step: the walker starts dispatching directly from
Graph.Starters().  Returns the final error and the execution trace. -/
def walkerRun (g : GraphData) (env : Env) (fuel : Nat) :
    Option GoErr × List String :=
  if g.nodes = [] then (none, [])
  else
    let r := walkLoop env fuel (initState g) []
    (finalError r.1, r.2)

/-! ## The sequential Graph.Walk (graph.go, first variant) -/

/-- State of the breadth-first fringe walk of the sequential Graph.Walk,
plus the trace of keys whose bodies were invoked. -/
structure SeqState where
  nodes : List (String × Node)
  fringe : List String
  complete : List String
  errored : List (String × GoErr)
  subgraphStarters : List (String × List String)
  subgraphFinishers : List (String × String)
  trace : List String

/-- The completion tail of the sequential Graph.Walk loop: mark the key
complete; if it finishes a subgraph whose recorded finishers are all
complete, mark the expander complete and swap in its children; append
the children whose parents are all complete to the fringe. -/
def seqComplete (st : SeqState) (key : String) : SeqState :=
  let complete := insertSet key st.complete
  let children := childrenOf st.nodes key
  let p :=
    match alookup st.subgraphFinishers key with
    | some starter =>
      if (alookupD st.subgraphStarters starter []).all
          (fun f => decide (f ∈ complete)) then
        (insertSet starter complete, childrenOf st.nodes starter)
      else (complete, children)
    | none => (complete, children)
  let ready :=
    p.2.filter
      (fun child =>
        (parentsOf st.nodes child).all (fun parent => decide (parent ∈ p.1)))
  { st with complete := p.1, fringe := st.fringe ++ ready }

/-- The fringe loop of the sequential Graph.Walk: dequeue the head of the
fringe, run its body, and either record its error, splice in its
validated subgraph, or complete it. -/
def seqLoop (env : Env) : Nat → SeqState → SeqState
  | 0, st => st
  | fuel + 1, st =>
    match st.fringe with
    | [] => st
    | key :: rest =>
      match alookup st.nodes key with
      | none => seqLoop env fuel { st with fringe := rest }
      | some n =>
        let st := { st with fringe := rest, trace := st.trace ++ [key] }
        match n.impl with
        | NodeKind.exec =>
          match env.execRes key with
          | some m =>
            seqLoop env fuel
              { st with
                errored := ainsert st.errored key
                  (GoErr.plain
                    ("failed to execute node \"" ++ key ++ "\": " ++ m)) }
          | none => seqLoop env fuel (seqComplete st key)
        | NodeKind.expand =>
          match env.expandRes key with
          | Sum.inr m =>
            seqLoop env fuel
              { st with
                errored := ainsert st.errored key
                  (GoErr.plain
                    ("failed to expand node \"" ++ key ++ "\": " ++ m)) }
          | Sum.inl sub =>
            if sub.nodes = [] then seqLoop env fuel (seqComplete st key)
            else
              match validateRun sub (keysOf sub.nodes) with
              | Except.error e =>
                seqLoop env fuel
                  { st with
                    errored := ainsert st.errored key
                      (GoErr.plain
                        ("failed to validate subgraph for node \"" ++ key ++
                          "\": " ++ e)) }
              | Except.ok (sstarts, sfins) =>
                seqLoop env fuel
                  { st with
                    nodes := splice st.nodes sub.nodes,
                    subgraphStarters := ainsert st.subgraphStarters key sfins,
                    fringe := rest ++ sstarts,
                    subgraphFinishers :=
                      sfins.foldl (fun m f => ainsert m f key)
                        st.subgraphFinishers }

/-- The sequential Graph.Walk (graph.go): nil on an empty graph,
otherwise validate first — returning the wrapped cycle error before any
body runs — then walk the fringe seeded with the sorted starters and
aggregate the per-node errors cumulatively.  Returns the final error and
the execution trace. -/
def graphWalkSeq (g : GraphData) (env : Env) (fuel : Nat) :
    Option GoErr × List String :=
  if g.nodes = [] then (none, [])
  else
    match validateRun g (keysOf g.nodes) with
    | Except.error e =>
      (some (GoErr.plain ("failed to validate graph: " ++ e)), [])
    | Except.ok (starters, _) =>
      let st := seqLoop env fuel
        { nodes := g.nodes,
          fringe := starters,
          complete := [],
          errored := [],
          subgraphStarters := [],
          subgraphFinishers := [],
          trace := [] }
      (walkAggregate st.errored, st.trace)

/-! ## The walker as a transition system over all schedules

Each `WStep` is the coordinator applying one outcome message for a key a
worker holds, exactly as in the three `select` branches of walker.Walk,
followed by the `walker.Process` dispatch.  Quantifying over step
sequences covers every interleaving of worker completions. -/

/-- Well-formedness of the caller's graph as built through AddNode and
Connect: every recorded starter is a node with no parents. -/
abbrev GWF (g : GraphData) : Prop :=
  ∀ s ∈ g.starters, parentsOf g.nodes s = []

/-- Well-formedness of a subgraph returned by an Expand body: its node
keys are distinct and its recorded starters are nodes with no parents. -/
abbrev SubWF (sub : GraphData) : Prop :=
  (keysOf sub.nodes).Nodup ∧
    ∀ s ∈ sub.starters, s ∈ keysOf sub.nodes ∧ parentsOf sub.nodes s = []

/-- Freshness of a subgraph's keys relative to the walker state (the
source leaves key collisions undefined and silently overwrites). -/
def FreshSub (sub : GraphData) (st : WState) : Prop :=
  ∀ k ∈ keysOf sub.nodes,
    alookup st.nodes k = none ∧ k ∉ st.pending ∧ k ∉ st.processing

/-- One coordinator step of walker.Walk: apply an errored, completed or
expanded outcome for a key in worker custody, then dispatch. -/
inductive WStep : WState → WState → Prop
  | errored (key : String) (e : GoErr) (st : WState)
      (hk : key ∈ st.processing) :
      WStep st (processAll (handleErrored key e st)).1
  | completed (fuel : Nat) (key : String) (st : WState)
      (hk : key ∈ st.processing) :
      WStep st (processAll (handleCompleted fuel key st)).1
  | expanded (fuel : Nat) (key : String) (sub : GraphData) (st : WState)
      (hk : key ∈ st.processing) (hwf : SubWF sub) (hfr : FreshSub sub st) :
      WStep st (processAll (handleExpanded fuel key sub st)).1

/-- States walker.Walk can be in while walking `g`, over every schedule. -/
inductive Reachable (g : GraphData) : WState → Prop
  | init : Reachable g (initState g)
  | step {st st' : WState} : Reachable g st → WStep st st' → Reachable g st'

/-! ## Concrete fixtures -/

/-- The cyclic test graph of TestGraph_Validate_Error: a→b→c→d→e with the
back edge d→b. -/
def gCycle5 : GraphData :=
  connect
    (connect
      (connect
        (connect
          (connect
            (addNode
              (addNode
                (addNode
                  (addNode (addNode emptyGraphData "a" NodeKind.exec) "b"
                    NodeKind.exec)
                  "c" NodeKind.exec)
                "d" NodeKind.exec)
              "e" NodeKind.exec)
            "a" "b")
          "b" "c")
        "c" "d")
      "d" "e")
    "d" "b"

/-- A cyclic graph whose cycle sits below the starter: a→b, b→c, c→b. -/
def gC5cyc : GraphData :=
  connect
    (connect
      (connect
        (addNode (addNode (addNode emptyGraphData "a" NodeKind.exec) "b"
          NodeKind.exec) "c" NodeKind.exec)
        "a" "b")
      "b" "c")
    "c" "b"

/-- The two-node chain a→b. -/
def gAB : GraphData :=
  connect
    (addNode (addNode emptyGraphData "a" NodeKind.exec) "b" NodeKind.exec)
    "a" "b"

/-- Two independent nodes a and b. -/
def gTwo : GraphData :=
  addNode (addNode emptyGraphData "a" NodeKind.exec) "b" NodeKind.exec

/-- Bodies that all succeed. -/
def envOk : Env :=
  { execRes := fun _ => none, expandRes := fun _ => Sum.inr "unused" }

/-- Bodies where only node a fails. -/
def envAfail : Env :=
  { execRes := fun k => if k = "a" then some "boom" else none,
    expandRes := fun _ => Sum.inr "unused" }

/-- Bodies that all fail. -/
def envAllFail : Env :=
  { execRes := fun _ => some "boom", expandRes := fun _ => Sum.inr "unused" }

/-- Edge relation of a graph: `b` is among the children recorded for `a`. -/
abbrev EdgeStep (g : GraphData) (a b : String) : Prop :=
  b ∈ childrenOf g.nodes a

/-- The dependency invariant of the walker: any key that is pending or in
worker custody has all of its parents already completed. -/
def InvDep (st : WState) : Prop :=
  ∀ k, (k ∈ st.pending ∨ k ∈ st.processing) →
    ∀ p ∈ parentsOf st.nodes k, p ∈ st.completed

/-- The state change walker.Expand performs for an empty subgraph: the key
leaves processing and an empty finisher list is recorded for it. -/
def tweakSS (k : String) (st : WState) : WState :=
  { st with
    processing := st.processing.erase k,
    subgraphStarters := ainsert st.subgraphStarters k [] }

/-- The walker state after the serial walk of gAB completes node a. -/
def stepAB : WState := (processAll (handleCompleted 3 "a" (initState gAB))).1

/-- A walker state mid-walk in which key k is the last uncompleted finisher
of the subgraph produced by expander S, and c is a child of S. -/
def stC7 : WState :=
  { gnodes := [],
    gstarters := [],
    gfinishers := [],
    nodes :=
      [("S", { impl := NodeKind.expand, parents := [], children := ["c"] }),
        ("k", { impl := NodeKind.exec, parents := [], children := [] }),
        ("x", { impl := NodeKind.exec, parents := [], children := [] }),
        ("c", { impl := NodeKind.exec, parents := ["S"], children := [] })],
    pending := [],
    processing := ["k"],
    completed := ["x"],
    errored := [],
    subgraphStarters := [("S", ["k", "x"])],
    subgraphFinishers := [("k", "S")] }

/-- A terminal walker state with one node and nothing completed or
errored, as left behind by a walk whose only node was pruned. -/
def stShort : WState :=
  { gnodes := [],
    gstarters := [],
    gfinishers := [],
    nodes := [("a", { impl := NodeKind.exec, parents := [], children := [] })],
    pending := [],
    processing := [],
    completed := [],
    errored := [],
    subgraphStarters := [],
    subgraphFinishers := [] }

/-- A walker state holding one processing key with no subgraph records. -/
def stPlain : WState :=
  { gnodes := [],
    gstarters := [],
    gfinishers := [],
    nodes :=
      [("k", { impl := NodeKind.expand, parents := [], children := ["c"] }),
        ("c", { impl := NodeKind.exec, parents := ["k"], children := [] })],
    pending := [],
    processing := ["k"],
    completed := [],
    errored := [],
    subgraphStarters := [],
    subgraphFinishers := [] }

/-- The graph a→b with b subsequently re-added through AddNode. -/
def gOverB : GraphData := addNode gAB "b" NodeKind.exec

/-- The graph a→b with a subsequently re-added through AddNode. -/
def gOverA : GraphData := addNode gAB "a" NodeKind.exec

/-! ## Library lemmas about the map primitives -/

theorem mem_insertSet {a b : String} {l : List String} :
    a ∈ insertSet b l ↔ a = b ∨ a ∈ l := by
  unfold insertSet
  by_cases h : b ∈ l
  · simp only [h, if_true]
    constructor
    · exact Or.inr
    · rintro (rfl | ha)
      · exact h
      · exact ha
  · simp [h, List.mem_append, or_comm]

theorem mem_insertSet_self (b : String) (l : List String) : b ∈ insertSet b l :=
  mem_insertSet.mpr (Or.inl rfl)

theorem mem_insertSet_of_mem {a b : String} {l : List String} (h : a ∈ l) :
    a ∈ insertSet b l :=
  mem_insertSet.mpr (Or.inr h)

theorem mem_foldl_insertSet {a : String} :
    ∀ (l init : List String),
      a ∈ l.foldl (fun p k => insertSet k p) init ↔ a ∈ init ∨ a ∈ l := by
  intro l
  induction l with
  | nil => simp
  | cons k l ih =>
    intro init
    simp only [List.foldl_cons, ih, mem_insertSet, List.mem_cons]
    tauto

theorem alookup_ainsert_self {α : Type} (l : List (String × α)) (k : String)
    (v : α) : alookup (ainsert l k v) k = some v := by
  induction l with
  | nil => simp [ainsert, alookup]
  | cons p rest ih =>
    rcases p with ⟨k1, v1⟩
    by_cases h : k1 = k
    · simp [ainsert, h, alookup]
    · simp [ainsert, h, alookup, ih]

theorem alookup_ainsert_ne {α : Type} (l : List (String × α)) {k k' : String}
    (v : α) (h : k' ≠ k) : alookup (ainsert l k v) k' = alookup l k' := by
  have hne : k ≠ k' := fun h' => h h'.symm
  induction l with
  | nil => simp [ainsert, alookup, hne]
  | cons p rest ih =>
    rcases p with ⟨k1, v1⟩
    by_cases hp : k1 = k
    · subst hp
      simp [ainsert, alookup, hne]
    · by_cases hp' : k1 = k'
      · simp [ainsert, hp, alookup, hp', h]
      · simp [ainsert, hp, alookup, hp', ih]

theorem alookup_splice_of_not_mem {α : Type} :
    ∀ (src base : List (String × α)) (k : String), k ∉ keysOf src →
      alookup (splice base src) k = alookup base k := by
  intro src
  induction src with
  | nil => intro base k _; rfl
  | cons p rest ih =>
    intro base k hk
    simp only [keysOf, List.map_cons, List.mem_cons, not_or] at hk
    have h1 : alookup (splice (ainsert base p.1 p.2) rest) k =
        alookup (ainsert base p.1 p.2) k := ih _ k (by
      simpa [keysOf] using hk.2)
    calc alookup (splice base (p :: rest)) k
        = alookup (splice (ainsert base p.1 p.2) rest) k := rfl
      _ = alookup (ainsert base p.1 p.2) k := h1
      _ = alookup base k := alookup_ainsert_ne _ _ hk.1

theorem alookup_isSome_of_mem_keys {α : Type} :
    ∀ (l : List (String × α)) (k : String), k ∈ keysOf l →
      ∃ v, alookup l k = some v := by
  intro l
  induction l with
  | nil => simp [keysOf]
  | cons p rest ih =>
    intro k hk
    by_cases h : p.1 = k
    · exact ⟨p.2, by simp [alookup, h]⟩
    · simp only [keysOf, List.map_cons, List.mem_cons] at hk
      rcases hk with hk | hk
      · exact absurd hk.symm h
      · simpa [alookup, h] using ih k hk

theorem alookup_splice_of_mem {α : Type} :
    ∀ (src base : List (String × α)) (k : String) (v : α),
      (keysOf src).Nodup → alookup src k = some v →
      alookup (splice base src) k = some v := by
  intro src
  induction src with
  | nil => intro base k v _ h; simp [alookup] at h
  | cons p rest ih =>
    intro base k v hnd hl
    have hnd' : (keysOf rest).Nodup ∧ p.1 ∉ keysOf rest := by
      simpa [keysOf, and_comm] using hnd
    by_cases h : p.1 = k
    · subst h
      simp only [alookup, if_pos rfl] at hl
      cases hl
      calc alookup (splice base (p :: rest)) p.1
          = alookup (splice (ainsert base p.1 p.2) rest) p.1 := rfl
        _ = alookup (ainsert base p.1 p.2) p.1 :=
            alookup_splice_of_not_mem _ _ _ hnd'.2
        _ = some p.2 := alookup_ainsert_self _ _ _
    · simp only [alookup, h, if_false] at hl
      exact ih (ainsert base p.1 p.2) k v hnd'.1 hl

/-! ## Claim C3 -/

/-- Claim C3 (code bug): Graph.validate does not sort before the DFS — it
visits nodes in Go map iteration order — so on the cyclic test graph
a→b→c→d→e, d→b, one iteration order yields the cycle message
"b -> c -> d -> b" and another (a permutation of the same key set)
yields "c -> d -> b -> c".  Two runs of validation on the same graph can
therefore produce different cycle error messages, contradicting the
claimed determinism. -/
theorem validate_cycle_message_depends_on_order :
    validateRun gCycle5 ["a", "b", "c", "d", "e"] =
      Except.error "found cycle in graph: b -> c -> d -> b" ∧
    validateRun gCycle5 ["c", "a", "b", "d", "e"] =
      Except.error "found cycle in graph: c -> d -> b -> c" ∧
    (["c", "a", "b", "d", "e"] : List String).Perm (keysOf gCycle5.nodes) ∧
    ("found cycle in graph: b -> c -> d -> b" : String) ≠
      "found cycle in graph: c -> d -> b -> c" := by
  refine ⟨rfl, rfl, by decide, by decide⟩

/-! ## Claim C2 -/

/-- Claim C2 (code bug): the aggregation loop of walker.Walk computes
`multi = errors.Append(err)`, dropping the accumulator, so with two
errored nodes the returned error is just the last map entry — for either
iteration order of the errored map, and likewise in a full walk of two
independently failing nodes, one key is absent from the returned error.
The cumulative loop of Graph.Walk/Graph.WalkP (`errors.Append(multi,
err)`) keeps both, which is what the claim describes. -/
theorem walker_multi_error_drops_entries :
    walkerAggregate
        [("a", GoErr.failedNode "a" "x"), ("b", GoErr.failedNode "b" "y")] =
      some (GoErr.failedNode "b" "y") ∧
    walkerAggregate
        [("b", GoErr.failedNode "b" "y"), ("a", GoErr.failedNode "a" "x")] =
      some (GoErr.failedNode "a" "x") ∧
    mentionsKey (GoErr.failedNode "b" "y") "a" = false ∧
    mentionsKey (GoErr.failedNode "a" "x") "b" = false ∧
    walkerRun gTwo envAllFail 10 =
      (some (GoErr.failedNode "b" "failed to execute node: boom"),
        ["a", "b"]) ∧
    mentionsKey (GoErr.failedNode "b" "failed to execute node: boom") "a" =
      false ∧
    (walkAggregate
        [("a", GoErr.failedNode "a" "x"), ("b", GoErr.failedNode "b" "y")]).map
        (fun e => mentionsKey e "a" && mentionsKey e "b") =
      some true := by
  exact ⟨rfl, rfl, rfl, rfl, rfl, rfl, rfl⟩

/-! ## Claim C5, counterexample part -/

/-- Claim C5 is refuted on walker.Walk: the graph a→b, b→c, c→b contains a
cycle (validate reports it), yet walker.Walk — which never calls
validate — dispatches and executes the body of node a (the trace is
["a"], not empty) and returns the IncompleteGraph error rather than the
cycle error. -/
theorem walker_walk_runs_bodies_on_cyclic_graph :
    validateRun gC5cyc (keysOf gC5cyc.nodes) =
      Except.error "found cycle in graph: b -> c -> b" ∧
    walkerRun gC5cyc envOk 10 =
      (some (GoErr.incompleteGraph 3 1 0), ["a"]) ∧
    hasIncompleteOpt (walkerRun gC5cyc envOk 10).1 = true := by
  exact ⟨rfl, rfl, rfl⟩

/-! ## Claim C8, counterexample part -/

/-- Claim C8 is refuted on the well-formed pruning walk: in the graph a→b,
when a's body fails, b is pruned (neither completed nor errored), the
terminal counts are |nodes| = 2 against |completed| + |errored| = 1, and
walker.Walk therefore does return the IncompleteGraph error alongside
a's node error. -/
theorem walker_incomplete_error_on_pruned_walk :
    walkerRun gAB envAfail 10 =
      (some (GoErr.multi
        [GoErr.failedNode "a" "failed to execute node: boom",
          GoErr.incompleteGraph 2 0 1]), ["a"]) ∧
    hasIncompleteOpt (walkerRun gAB envAfail 10).1 = true ∧
    GWF gAB := by
  refine ⟨rfl, rfl, by decide⟩

/-! ## Claim C10 -/

/-- Claim C10: AddNode on an existing key silently replaces the node with a
fresh one (empty parents and children) and unconditionally re-adds the
key to starters and finishers; concretely, after building a→b and
re-adding b, b is in starters while a's children still record the edge
a→b, and after re-adding a instead, a is in finishers while b's parents
still record the edge — breaking the starters/finishers invariants. -/
theorem addNode_overwrite_breaks_invariants :
    (∀ (g : GraphData) (key : String) (impl : NodeKind),
      key ∈ keysOf g.nodes →
        key ∈ (addNode g key impl).starters ∧
        key ∈ (addNode g key impl).finishers ∧
        alookup (addNode g key impl).nodes key =
          some { impl := impl, parents := [], children := [] }) ∧
    ("b" ∈ gOverB.starters ∧ "b" ∈ childrenOf gOverB.nodes "a") ∧
    ("a" ∈ gOverA.finishers ∧ "a" ∈ parentsOf gOverA.nodes "b") := by
  refine ⟨fun g key impl _ => ⟨mem_insertSet_self _ _, mem_insertSet_self _ _,
    alookup_ainsert_self _ _ _⟩, ⟨by decide, by decide⟩, ⟨by decide, by decide⟩⟩

/-- Witness for C10's theorem at the concrete overwrite of b in a→b. -/
theorem addNode_overwrite_breaks_invariants_witness :
    "b" ∈ (addNode gAB "b" NodeKind.exec).starters :=
  (addNode_overwrite_breaks_invariants.1 gAB "b" NodeKind.exec (by decide)).1

/-! ## Claim C4: the cycle message names an actual cycle -/

theorem firstIdx_spec :
    ∀ (path : List String) (key : String) (ix : Nat),
      firstIdx path key = some ix →
      (path.drop ix).head? = some key ∧ ix < path.length := by
  intro path
  induction path with
  | nil => intro key ix h; simp [firstIdx] at h
  | cons a rest ih =>
    intro key ix h
    by_cases ha : a = key
    · simp only [firstIdx, ha, if_pos rfl] at h
      cases h
      simp [ha]
    · simp only [firstIdx, ha, if_false, Option.map_eq_some'] at h
      rcases h with ⟨j, hj, rfl⟩
      rcases ih key j hj with ⟨h1, h2⟩
      exact ⟨by simpa using h1, by simpa using h2⟩

theorem foldl_bind_err {ε α γ : Type} (f : γ → α → Except ε α) :
    ∀ (cs : List γ) (e : ε),
      cs.foldl (fun acc c => Except.bind acc (f c)) (Except.error e) =
        Except.error e := by
  intro cs
  induction cs with
  | nil => intro e; rfl
  | cons c cs ih =>
    intro e
    rw [List.foldl_cons]
    exact ih e

theorem dfsRun_error_spec (g : GraphData) :
    ∀ (fuel : Nat) (current : String) (visited path : List String) (e : String),
      List.Chain' (EdgeStep g) (path ++ [current]) →
      dfsRun g fuel current visited path = Except.error e →
      ∃ cyc : List String,
        e = "found cycle in graph: " ++ String.intercalate " -> " cyc ∧
        2 ≤ cyc.length ∧ cyc.head? = cyc.getLast? ∧
        List.Chain' (EdgeStep g) cyc := by
  intro fuel
  induction fuel with
  | zero =>
    intro current visited path e _ h
    simp [dfsRun] at h
  | succ fuel ih =>
    have hlist :
        ∀ (cs : List String) (path1 visited : List String) (e : String),
          (∀ c ∈ cs, List.Chain' (EdgeStep g) (path1 ++ [c])) →
          cs.foldl
              (fun acc c => Except.bind acc (fun v => dfsRun g fuel c v path1))
              (Except.ok visited) =
            Except.error e →
          ∃ cyc : List String,
            e = "found cycle in graph: " ++ String.intercalate " -> " cyc ∧
            2 ≤ cyc.length ∧ cyc.head? = cyc.getLast? ∧
            List.Chain' (EdgeStep g) cyc := by
      intro cs
      induction cs with
      | nil => intro path1 visited e _ h; simp at h
      | cons c cs ihc =>
        intro path1 visited e hch h
        rw [List.foldl_cons] at h
        cases hd : dfsRun g fuel c visited path1 with
        | error e' =>
          rw [show Except.bind (Except.ok visited)
                (fun v => dfsRun g fuel c v path1) = Except.error e' from by
              simpa [Except.bind] using hd] at h
          rw [foldl_bind_err (fun c v => dfsRun g fuel c v path1)] at h
          cases h
          exact ih c visited path1 _ (hch c (by simp)) hd
        | ok v' =>
          rw [show Except.bind (Except.ok visited)
                (fun v => dfsRun g fuel c v path1) = Except.ok v' from by
              simpa [Except.bind] using hd] at h
          exact ihc path1 v' e (fun c' hc' => hch c' (by simp [hc'])) h
    intro current visited path e hchain h
    rw [dfsRun] at h
    cases hidx : firstIdx path current with
    | some ix =>
      rw [hidx] at h
      cases h
      rcases firstIdx_spec path current ix hidx with ⟨hhead, hlt⟩
      have hne : path.drop ix ≠ [] := by
        intro hnil
        rw [hnil] at hhead
        simp at hhead
      refine ⟨path.drop ix ++ [current], rfl, ?_, ?_, ?_⟩
      · have : 1 ≤ (path.drop ix).length := by
          cases hd : path.drop ix with
          | nil => exact absurd hd hne
          | cons x xs => simp
        simp only [List.length_append, List.length_cons, List.length_nil]
        omega
      · rw [List.getLast?_concat, List.head?_append_of_ne_nil _ hne]
        exact hhead
      · refine hchain.suffix ⟨path.take ix, ?_⟩
        rw [← List.append_assoc, List.take_append_drop]
    | none =>
      rw [hidx] at h
      by_cases hv : current ∈ visited
      · rw [if_pos hv] at h
        cases h
      · rw [if_neg hv] at h
        refine hlist (childrenOf g.nodes current) (path ++ [current])
          (current :: visited) e ?_ h
        intro c hc
        refine List.chain'_append.mpr ⟨hchain, List.chain'_singleton _, ?_⟩
        intro x hx y hy
        rw [List.getLast?_concat] at hx
        simp only [List.head?_cons, Option.mem_def, Option.some.injEq] at hx hy
        subst hx
        subst hy
        exact hc

theorem validateGo_error_spec (g : GraphData) :
    ∀ (order starters finishers visited : List String) (e : String),
      validateGo g order starters finishers visited = Except.error e →
      ∃ cyc : List String,
        e = "found cycle in graph: " ++ String.intercalate " -> " cyc ∧
        2 ≤ cyc.length ∧ cyc.head? = cyc.getLast? ∧
        List.Chain' (EdgeStep g) cyc := by
  intro order
  induction order with
  | nil => intro starters finishers visited e h; simp [validateGo] at h
  | cons key rest ih =>
    intro starters finishers visited e h
    rw [validateGo] at h
    cases hl : alookup g.nodes key with
    | none =>
      rw [hl] at h
      exact ih _ _ _ e h
    | some n =>
      rw [hl] at h
      simp only at h
      cases hd : dfsRun g (dfsFuel g) key visited [] with
      | error e' =>
        rw [hd] at h
        cases h
        exact dfsRun_error_spec g (dfsFuel g) key visited [] _
          (List.chain'_singleton key) hd
      | ok v' =>
        rw [hd] at h
        exact ih _ _ _ e h

/-- Claim C4: whenever validation reports a cycle — under any Go map
iteration order — the error message is exactly "found cycle in graph: "
followed by a list of keys joined by " -> " that forms an actual cycle
of the graph: at least two entries, first equal to last, and each
consecutive pair an edge (the list is the suffix of the DFS path from
the first occurrence of the repeated node).  In particular, on the graph
a→b, b→c, c→d, d→e, d→b under sorted iteration order the message is
exactly "found cycle in graph: b -> c -> d -> b". -/
theorem dfs_cycle_error_is_actual_cycle :
    (∀ (g : GraphData) (order : List String) (e : String),
      validateRun g order = Except.error e →
      ∃ cyc : List String,
        e = "found cycle in graph: " ++ String.intercalate " -> " cyc ∧
        2 ≤ cyc.length ∧ cyc.head? = cyc.getLast? ∧
        List.Chain' (EdgeStep g) cyc) ∧
    validateRun gCycle5 ["a", "b", "c", "d", "e"] =
      Except.error "found cycle in graph: b -> c -> d -> b" := by
  exact ⟨fun g order e h => validateGo_error_spec g order [] [] [] e h, rfl⟩

/-- Witness for C4's theorem at the concrete cyclic test graph. -/
theorem dfs_cycle_error_is_actual_cycle_witness :
    ∃ cyc : List String,
      "found cycle in graph: b -> c -> d -> b" =
        "found cycle in graph: " ++ String.intercalate " -> " cyc ∧
      2 ≤ cyc.length ∧ cyc.head? = cyc.getLast? ∧
      List.Chain' (EdgeStep gCycle5) cyc :=
  dfs_cycle_error_is_actual_cycle.1 gCycle5 ["a", "b", "c", "d", "e"]
    "found cycle in graph: b -> c -> d -> b" rfl

/-! ## Claim C5, amended part -/

/-- Claim C5 (amended): the sequential Graph.Walk (and likewise WalkP)
validates before dispatching anything: when validation of a nonempty
graph reports a cycle, Walk returns exactly the wrapped validation error
with an empty execution trace — no Execute or Expand body is invoked.
walker.Walk however performs no validation at all (see the
counterexample theorem for what it does on a cyclic graph). -/
theorem seq_walk_validates_before_dispatch :
    ∀ (g : GraphData) (env : Env) (fuel : Nat) (e : String),
      g.nodes ≠ [] →
      validateRun g (keysOf g.nodes) = Except.error e →
      graphWalkSeq g env fuel =
        (some (GoErr.plain ("failed to validate graph: " ++ e)), []) := by
  intro g env fuel e hne hv
  unfold graphWalkSeq
  rw [if_neg hne, hv]

/-- Witness for C5's amended theorem at the cyclic graph a→b, b→c, c→b. -/
theorem seq_walk_validates_before_dispatch_witness :
    graphWalkSeq gC5cyc envOk 5 =
      (some (GoErr.plain
        ("failed to validate graph: " ++ "found cycle in graph: b -> c -> b")),
        []) :=
  seq_walk_validates_before_dispatch gC5cyc envOk 5
    "found cycle in graph: b -> c -> b" (by decide) rfl

/-! ## Claim C8, amended part -/

theorem walkerAggregate_result :
    ∀ (errs : List (String × GoErr)),
      walkerAggregate errs = none ∨
        ∃ ke ∈ errs, walkerAggregate errs = some ke.2 := by
  have main :
      ∀ (errs : List (String × GoErr)) (acc : Option GoErr),
        errs.foldl (fun _ ke => some (errAppend none ke.2)) acc = acc ∨
          ∃ ke ∈ errs,
            errs.foldl (fun _ ke => some (errAppend none ke.2)) acc =
              some ke.2 := by
    intro errs
    induction errs with
    | nil => intro acc; exact Or.inl rfl
    | cons a l ih =>
      intro acc
      rw [List.foldl_cons]
      rcases ih (some (errAppend none a.2)) with h | ⟨ke, hke, h⟩
      · exact Or.inr ⟨a, by simp, h⟩
      · exact Or.inr ⟨ke, by simp [hke], h⟩
  intro errs
  exact main errs none

theorem hasIncompleteL_append :
    ∀ (l1 l2 : List GoErr),
      hasIncompleteL (l1 ++ l2) = (hasIncompleteL l1 || hasIncompleteL l2) := by
  intro l1
  induction l1 with
  | nil => intro l2; simp [hasIncompleteL]
  | cons e l ih => intro l2; simp [hasIncompleteL, ih, Bool.or_assoc]

theorem hasIncomplete_errAppend_inc (m : Option GoErr) (a b c : Nat) :
    hasIncomplete (errAppend m (GoErr.incompleteGraph a b c)) = true := by
  cases m with
  | none => rfl
  | some g =>
    cases g with
    | failedNode k s => rfl
    | incompleteGraph x y z => rfl
    | plain s => rfl
    | multi es =>
      simp [errAppend, hasIncomplete, hasIncompleteL_append, hasIncompleteL]

/-- Claim C8 (amended): walker.Walk returns the IncompleteGraph error
exactly when it terminates with |completed| + |errored| ≠ |nodes| — for
any terminal walker state whose per-node errors are ordinary node
errors, the final composite error contains IncompleteGraph iff the
counts mismatch.  On an error-free well-formed walk the counts match
and Walk returns nil; but on a walk where a node errors and its
descendants are pruned the counts do mismatch, so the error does occur
there (see the counterexample theorem), contrary to the claim. -/
theorem walk_incomplete_iff_mismatch :
    (∀ st : WState, (∀ ke ∈ st.errored, hasIncomplete ke.2 = false) →
      (hasIncompleteOpt (finalError st) = true ↔
        st.nodes.length ≠ st.completed.length + st.errored.length)) ∧
    walkerRun gAB envOk 10 = (none, ["a", "b"]) := by
  constructor
  · intro st hclean
    unfold finalError
    by_cases hc : st.nodes.length = st.completed.length + st.errored.length
    · rw [if_pos hc]
      constructor
      · intro habs
        rcases walkerAggregate_result st.errored with h | ⟨ke, hke, h⟩
        · rw [h] at habs
          simp [hasIncompleteOpt] at habs
        · rw [h] at habs
          simp only [hasIncompleteOpt] at habs
          rw [hclean ke hke] at habs
          cases habs
      · intro hne
        exact absurd hc hne
    · rw [if_neg hc]
      constructor
      · intro _
        exact hc
      · intro _
        simp only [hasIncompleteOpt]
        show hasIncomplete (errAppend none (errAppend _ _)) = true
        exact hasIncomplete_errAppend_inc _ _ _ _
  · rfl

/-- Witness for C8's amended theorem at a terminal state with one node and
nothing completed or errored. -/
theorem walk_incomplete_iff_mismatch_witness :
    hasIncompleteOpt (finalError stShort) = true :=
  (walk_incomplete_iff_mismatch.1 stShort (by simp [stShort])).mpr (by decide)

/-! ## Lemmas about walker.Completed -/

theorem completedAux_frame :
    ∀ (fuel : Nat) (key : String) (st : WState),
      ((completedAux fuel key st).1.gnodes = st.gnodes ∧
        (completedAux fuel key st).1.gstarters = st.gstarters ∧
        (completedAux fuel key st).1.gfinishers = st.gfinishers) ∧
      (completedAux fuel key st).1.nodes = st.nodes ∧
      (completedAux fuel key st).1.pending = st.pending ∧
      (completedAux fuel key st).1.errored = st.errored ∧
      (completedAux fuel key st).1.subgraphStarters = st.subgraphStarters ∧
      (completedAux fuel key st).1.subgraphFinishers = st.subgraphFinishers := by
  intro fuel
  induction fuel with
  | zero => intro key st; exact ⟨⟨rfl, rfl, rfl⟩, rfl, rfl, rfl, rfl, rfl⟩
  | succ fuel ih =>
    intro key st
    simp only [completedAux]
    split
    · split
      · exact ih _ _
      · exact ⟨⟨rfl, rfl, rfl⟩, rfl, rfl, rfl, rfl, rfl⟩
    · exact ⟨⟨rfl, rfl, rfl⟩, rfl, rfl, rfl, rfl, rfl⟩

theorem completedAux_completed_mono :
    ∀ (fuel : Nat) (key : String) (st : WState) (a : String),
      a ∈ st.completed → a ∈ (completedAux fuel key st).1.completed := by
  intro fuel
  induction fuel with
  | zero => intro key st a h; exact h
  | succ fuel ih =>
    intro key st a h
    simp only [completedAux]
    split
    · split
      · exact ih _ _ a (mem_insertSet_of_mem h)
      · exact mem_insertSet_of_mem h
    · exact mem_insertSet_of_mem h

theorem completedAux_mem_self :
    ∀ (fuel : Nat) (key : String) (st : WState),
      key ∈ (completedAux (fuel + 1) key st).1.completed := by
  intro fuel key st
  simp only [completedAux]
  split
  · split
    · exact completedAux_completed_mono _ _ _ key (mem_insertSet_self _ _)
    · exact mem_insertSet_self _ _
  · exact mem_insertSet_self _ _

theorem completedAux_processing_subset :
    ∀ (fuel : Nat) (key : String) (st : WState),
      (completedAux fuel key st).1.processing ⊆ st.processing := by
  intro fuel
  induction fuel with
  | zero => intro key st; exact fun _ h => h
  | succ fuel ih =>
    intro key st
    simp only [completedAux]
    split
    · split
      · exact fun a ha => List.erase_subset _ _ (ih _ _ ha)
      · exact fun a ha => List.erase_subset _ _ ha
    · exact fun a ha => List.erase_subset _ _ ha

theorem completedAux_succ_processing :
    ∀ (fuel : Nat) (key : String) (st : WState),
      (completedAux (fuel + 1) key st).1.processing ⊆ st.processing.erase key := by
  intro fuel key st
  simp only [completedAux]
  split
  · split
    · exact fun a ha => completedAux_processing_subset _ _ _ ha
    · exact fun a ha => ha
  · exact fun a ha => ha

theorem completedAux_ready :
    ∀ (fuel : Nat) (key : String) (st : WState) (c : String),
      c ∈ (completedAux fuel key st).2 →
      ∀ p ∈ parentsOf st.nodes c, p ∈ (completedAux fuel key st).1.completed := by
  intro fuel
  induction fuel with
  | zero => intro key st c hc; exact absurd hc (List.not_mem_nil c)
  | succ fuel ih =>
    intro key st c hc p hp
    revert hc
    simp only [completedAux]
    split
    · split
      · intro hc
        exact ih _ _ c hc p hp
      · intro hc
        rcases List.mem_filter.mp hc with ⟨_, hall⟩
        exact of_decide_eq_true (List.all_eq_true.mp hall p hp)
    · intro hc
      rcases List.mem_filter.mp hc with ⟨_, hall⟩
      exact of_decide_eq_true (List.all_eq_true.mp hall p hp)

/-! ## Preservation of the dependency invariant -/

theorem invDep_processAll (st : WState) (h : InvDep st) :
    InvDep (processAll st).1 := by
  intro k hk p hp
  cases hk with
  | inl h0 => exact absurd h0 (List.not_mem_nil k)
  | inr h0 =>
    rcases List.mem_append.mp h0 with h1 | h2
    · exact h k (Or.inr h1) p hp
    · exact h k (Or.inl h2) p hp

theorem invDep_handleErrored (key : String) (e : GoErr) (st : WState)
    (h : InvDep st) : InvDep (handleErrored key e st) := by
  intro k hk p hp
  cases hk with
  | inl h0 => exact h k (Or.inl h0) p hp
  | inr h0 => exact h k (Or.inr (List.mem_of_mem_erase h0)) p hp

theorem invDep_handleCompleted (fuel : Nat) (key : String) (st : WState)
    (h : InvDep st) : InvDep (handleCompleted fuel key st) := by
  intro k hk p hp
  have hframe := completedAux_frame fuel key st
  have hp' : p ∈ parentsOf st.nodes k := by
    rw [show (handleCompleted fuel key st).nodes =
        (completedAux fuel key st).1.nodes from rfl, hframe.2.1] at hp
    exact hp
  show p ∈ (completedAux fuel key st).1.completed
  cases hk with
  | inl h0 =>
    have h0' : k ∈ (completedAux fuel key st).1.pending ∨
        k ∈ (completedAux fuel key st).2 :=
      (mem_foldl_insertSet _ _).mp h0
    rcases h0' with h1 | h2
    · rw [hframe.2.2.1] at h1
      exact completedAux_completed_mono fuel key st p (h k (Or.inl h1) p hp')
    · exact completedAux_ready fuel key st k h2 p hp'
  | inr h0 =>
    have h1 : k ∈ st.processing :=
      completedAux_processing_subset fuel key st h0
    exact completedAux_completed_mono fuel key st p (h k (Or.inr h1) p hp')

theorem invDep_expandStep (key : String) (sub : GraphData) (st : WState)
    (hfr : FreshSub sub st) (h : InvDep st) :
    InvDep (expandStep key sub st).1 := by
  intro j hj p hp
  have hj' : j ∈ st.pending ∨ j ∈ st.processing := by
    rcases hj with hj | hj
    · exact Or.inl hj
    · exact Or.inr (List.mem_of_mem_erase hj)
  have hjk : j ∉ keysOf sub.nodes := by
    intro hmem
    rcases hfr j hmem with ⟨_, hp1, hp2⟩
    rcases hj' with hh | hh
    · exact hp1 hh
    · exact hp2 hh
  have hp' : p ∈ parentsOf st.nodes j := by
    have heq : parentsOf (splice st.nodes sub.nodes) j = parentsOf st.nodes j := by
      unfold parentsOf
      rw [alookup_splice_of_not_mem sub.nodes st.nodes j hjk]
    rw [show (expandStep key sub st).1.nodes =
        splice st.nodes sub.nodes from rfl, heq] at hp
    exact hp
  exact h j hj' p hp'

theorem invDep_handleExpanded (fuel : Nat) (key : String) (sub : GraphData)
    (st : WState) (hwf : SubWF sub) (hfr : FreshSub sub st) (h : InvDep st) :
    InvDep (handleExpanded fuel key sub st) := by
  have hInv2 : InvDep (expandStep key sub st).1 :=
    invDep_expandStep key sub st hfr h
  rw [show handleExpanded fuel key sub st =
      (if (expandStep key sub st).2 = [] then
        addPending (completedAux fuel key (expandStep key sub st).1).2
          (completedAux fuel key (expandStep key sub st).1).1
      else addPending (expandStep key sub st).2 (expandStep key sub st).1)
    from rfl]
  split
  · exact invDep_handleCompleted fuel key _ hInv2
  · intro j hj p hp
    cases hj with
    | inl h0 =>
      have h0' : j ∈ (expandStep key sub st).1.pending ∨ j ∈ sub.starters :=
        (mem_foldl_insertSet _ _).mp h0
      rcases h0' with h1 | h2
      · exact hInv2 j (Or.inl h1) p hp
      · rcases hwf.2 j h2 with ⟨hk2, hpar⟩
        rcases alookup_isSome_of_mem_keys sub.nodes j hk2 with ⟨n, hn⟩
        have hpar' : n.parents = [] := by
          unfold parentsOf at hpar
          rw [hn] at hpar
          exact hpar
        have hsplice : alookup (splice st.nodes sub.nodes) j = some n :=
          alookup_splice_of_mem sub.nodes st.nodes j n hwf.1 hn
        unfold parentsOf at hp
        rw [show (addPending (expandStep key sub st).2
            (expandStep key sub st).1).nodes =
            splice st.nodes sub.nodes from rfl, hsplice] at hp
        simp only [hpar'] at hp
        exact absurd hp (List.not_mem_nil p)
    | inr h0 => exact hInv2 j (Or.inr h0) p hp

theorem invDep_step {st st' : WState} (hs : WStep st st') (h : InvDep st) :
    InvDep st' := by
  cases hs with
  | errored key e st hk =>
    exact invDep_processAll _ (invDep_handleErrored key e st h)
  | completed fuel key st hk =>
    exact invDep_processAll _ (invDep_handleCompleted fuel key st h)
  | expanded fuel key sub st hk hwf hfr =>
    exact invDep_processAll _ (invDep_handleExpanded fuel key sub st hwf hfr h)

theorem invDep_init (g : GraphData) (hg : GWF g) : InvDep (initState g) := by
  apply invDep_processAll
  intro k hk p hp
  cases hk with
  | inl h0 =>
    have : p ∈ ([] : List String) := by
      rw [show (initSeed g).nodes = g.nodes from rfl] at hp
      rw [hg k h0] at hp
      exact hp
    exact absurd this (List.not_mem_nil p)
  | inr h0 => exact absurd h0 (List.not_mem_nil k)

/-! ## Claim C1 -/

/-- Claim C1: over every schedule of walker.Walk on a well-formed graph
(every starter has no parents, every expansion is well-formed and
fresh), any key that is pending or in worker custody has all of its
parents in the completed set.  Since a body begins only after its key is
dispatched into processing, and a key enters the completed set only
after its body has returned, the body of a parent returns before the
body of any of its children begins. -/
theorem walker_dependency_respect :
    ∀ (g : GraphData), GWF g → ∀ (st : WState), Reachable g st →
      ∀ k, (k ∈ st.pending ∨ k ∈ st.processing) →
        ∀ p ∈ parentsOf st.nodes k, p ∈ st.completed := by
  intro g hg st hst
  induction hst with
  | init => exact invDep_init g hg
  | step _ hs ih => exact invDep_step hs ih

/-- Witness for C1's theorem: after node a of the chain a→b completes, b
is dispatched and its only parent a is indeed completed. -/
theorem walker_dependency_respect_witness : "a" ∈ stepAB.completed :=
  walker_dependency_respect gAB (by decide) stepAB
    (Reachable.step Reachable.init
      (WStep.completed 3 "a" (initState gAB) (by decide)))
    "b" (Or.inr (by decide)) "a" (by decide)

/-! ## Claim C9 -/

theorem wstep_gframe {st st' : WState} (hs : WStep st st') :
    st'.gnodes = st.gnodes ∧ st'.gstarters = st.gstarters ∧
      st'.gfinishers = st.gfinishers := by
  cases hs with
  | errored key e st hk => exact ⟨rfl, rfl, rfl⟩
  | completed fuel key st hk =>
    have hf := completedAux_frame fuel key st
    exact ⟨hf.1.1, hf.1.2.1, hf.1.2.2⟩
  | expanded fuel key sub st hk hwf hfr =>
    have hgoal : (handleExpanded fuel key sub st).gnodes = st.gnodes ∧
        (handleExpanded fuel key sub st).gstarters = st.gstarters ∧
        (handleExpanded fuel key sub st).gfinishers = st.gfinishers := by
      rw [show handleExpanded fuel key sub st =
          (if (expandStep key sub st).2 = [] then
            addPending (completedAux fuel key (expandStep key sub st).1).2
              (completedAux fuel key (expandStep key sub st).1).1
          else addPending (expandStep key sub st).2 (expandStep key sub st).1)
        from rfl]
      split
      · have hf := completedAux_frame fuel key (expandStep key sub st).1
        exact ⟨hf.1.1, hf.1.2.1, hf.1.2.2⟩
      · exact ⟨rfl, rfl, rfl⟩
    exact hgoal

/-- Claim C9: Walk leaves the caller's Graph unchanged — in every state
reachable by walker.Walk from graph `g`, under any schedule, the
caller's node map (with every node's parents and children lists) and
its starters and finishers sets equal what they were when Walk began:
subgraph splicing writes only into the walker's private copy. -/
theorem walk_preserves_caller_graph :
    ∀ (g : GraphData) (st : WState), Reachable g st →
      st.gnodes = g.nodes ∧ st.gstarters = g.starters ∧
        st.gfinishers = g.finishers := by
  intro g st hst
  induction hst with
  | init => exact ⟨rfl, rfl, rfl⟩
  | step _ hs ih =>
    have hf := wstep_gframe hs
    exact ⟨hf.1.trans ih.1, hf.2.1.trans ih.2.1, hf.2.2.trans ih.2.2⟩

/-- Witness for C9's theorem at the freshly seeded walker for a→b. -/
theorem walk_preserves_caller_graph_witness :
    (initState gAB).gnodes = gAB.nodes ∧
      (initState gAB).gstarters = gAB.starters ∧
      (initState gAB).gfinishers = gAB.finishers :=
  walk_preserves_caller_graph gAB (initState gAB) Reachable.init

/-! ## Claim C7 -/

/-- Claim C7: when a subgraph finisher k completes and k is recorded as a
finisher of expander S (which is itself not nested in another
expansion), S is marked completed by walker.Completed iff every finisher
recorded for S's subgraph is k itself or already completed; when the
last finisher completes this way, S is promoted and the returned ready
list is computed from S's original children; otherwise the returned
ready list is empty (a spliced finisher has no children of its own), so
S's children are only considered after the whole subgraph finished. -/
theorem completed_promotes_expander (st : WState) (k S : String) (fuel : Nat)
    (hfin : alookup st.subgraphFinishers k = some S)
    (houter : alookup st.subgraphFinishers S = none)
    (hkS : k ≠ S)
    (hSc : S ∉ st.completed)
    (hkch : childrenOf st.nodes k = []) :
    (S ∈ (completedAux (fuel + 2) k st).1.completed ↔
      ∀ f ∈ alookupD st.subgraphStarters S [], f = k ∨ f ∈ st.completed) ∧
    ((∀ f ∈ alookupD st.subgraphStarters S [], f = k ∨ f ∈ st.completed) →
      (completedAux (fuel + 2) k st).2 =
        readyChildren (completedAux (fuel + 2) k st).1 S) ∧
    (¬(∀ f ∈ alookupD st.subgraphStarters S [], f = k ∨ f ∈ st.completed) →
      (completedAux (fuel + 2) k st).2 = []) := by
  have hcond_iff : ((alookupD st.subgraphStarters S []).all
      (fun f => decide (f ∈ insertSet k st.completed)) = true) ↔
      (∀ f ∈ alookupD st.subgraphStarters S [], f = k ∨ f ∈ st.completed) := by
    rw [List.all_eq_true]
    constructor
    · intro h f hf
      exact mem_insertSet.mp (of_decide_eq_true (h f hf))
    · intro h f hf
      exact decide_eq_true (mem_insertSet.mpr (h f hf))
  simp only [completedAux]
  rw [show alookup ({ st with
      completed := insertSet k st.completed,
      processing := st.processing.erase k } : WState).subgraphFinishers k =
      alookup st.subgraphFinishers k from rfl, hfin]
  dsimp only
  by_cases hc : (alookupD st.subgraphStarters S []).all
      (fun f => decide (f ∈ insertSet k st.completed)) = true
  · rw [if_pos hc, houter]
    dsimp only
    refine ⟨⟨fun _ => hcond_iff.mp hc, fun _ => mem_insertSet_self _ _⟩,
      fun _ => rfl, fun hn => absurd (hcond_iff.mp hc) hn⟩
  · rw [if_neg hc]
    dsimp only
    have hL : S ∉ insertSet k st.completed := by
      intro h
      rcases mem_insertSet.mp h with h1 | h1
      · exact hkS h1.symm
      · exact hSc h1
    have hR : ¬∀ f ∈ alookupD st.subgraphStarters S [], f = k ∨ f ∈ st.completed :=
      fun h => hc (hcond_iff.mpr h)
    refine ⟨iff_of_false hL hR, fun h => absurd h hR, fun _ => ?_⟩
    simp only [readyChildren]
    rw [show childrenOf ({ st with
        completed := insertSet k st.completed,
        processing := st.processing.erase k } : WState).nodes k =
        childrenOf st.nodes k from rfl, hkch]
    rfl

/-- Witness for C7's theorem: in stC7, finisher k completes while the only
other finisher x of expander S is already completed, so S is promoted. -/
theorem completed_promotes_expander_witness :
    "S" ∈ (completedAux 2 "k" stC7).1.completed :=
  (completed_promotes_expander stC7 "k" "S" 0 (by decide) (by decide)
    (by decide) (by decide) (by decide)).1.mpr (by decide)

/-! ## Claim C6 -/

theorem completedAux_succ_none (fuel : Nat) (j : String) (st : WState)
    (h : alookup st.subgraphFinishers j = none) :
    completedAux (fuel + 1) j st =
      ({ st with
          completed := insertSet j st.completed,
          processing := st.processing.erase j },
        readyChildren
          { st with
            completed := insertSet j st.completed,
            processing := st.processing.erase j } j) := by
  simp only [completedAux]
  rw [h]

theorem completedAux_succ_some (fuel : Nat) (j starter : String) (st : WState)
    (h : alookup st.subgraphFinishers j = some starter) :
    completedAux (fuel + 1) j st =
      (if (alookupD st.subgraphStarters starter []).all
          (fun f => decide (f ∈ insertSet j st.completed)) then
        completedAux fuel starter
          { st with
            completed := insertSet j st.completed,
            processing := st.processing.erase j }
      else
        ({ st with
            completed := insertSet j st.completed,
            processing := st.processing.erase j },
          readyChildren
            { st with
              completed := insertSet j st.completed,
              processing := st.processing.erase j } j)) := by
  simp only [completedAux]
  rw [h]

theorem completedAux_tweak (k : String) :
    ∀ (fuel : Nat) (j : String) (st : WState),
      (∀ f S, alookup st.subgraphFinishers f = some S → S ≠ k) →
      completedAux fuel j (tweakSS k st) =
        (tweakSS k (completedAux fuel j st).1, (completedAux fuel j st).2) := by
  intro fuel
  induction fuel with
  | zero => intro j st _; rfl
  | succ fuel ih =>
    intro j st hnok
    have hswap : ({ tweakSS k st with
        completed := insertSet j st.completed,
        processing := (tweakSS k st).processing.erase j } : WState) =
        tweakSS k { st with
          completed := insertSet j st.completed,
          processing := st.processing.erase j } := by
      apply WState.ext <;> simp [tweakSS]
      exact List.erase_comm k j st.processing
    cases hsf : alookup st.subgraphFinishers j with
    | none =>
      rw [completedAux_succ_none fuel j (tweakSS k st) hsf,
        completedAux_succ_none fuel j st hsf]
      exact Prod.ext hswap rfl
    | some starter =>
      have hSk : starter ≠ k := hnok j starter hsf
      rw [completedAux_succ_some fuel j starter (tweakSS k st) hsf,
        completedAux_succ_some fuel j starter st hsf]
      rw [show alookupD (tweakSS k st).subgraphStarters starter [] =
          alookupD st.subgraphStarters starter [] from by
        show (alookup (ainsert st.subgraphStarters k []) starter).getD [] = _
        rw [alookup_ainsert_ne _ _ hSk]
        rfl]
      rw [show (insertSet j (tweakSS k st).completed) =
          insertSet j st.completed from rfl]
      by_cases hcond : (alookupD st.subgraphStarters starter []).all
          (fun f => decide (f ∈ insertSet j st.completed)) = true
      · rw [if_pos hcond, if_pos hcond, hswap]
        exact ih starter _ hnok
      · rw [if_neg hcond, if_neg hcond]
        exact Prod.ext hswap rfl

/-- Claim C6: the expanded-outcome handler of walker.Walk, applied to a key
k whose Expand returned the empty graph, produces the same pending,
processing, completed, errored, nodes and subgraphFinishers as the
completed-outcome handler applied to k — i.e. k is treated exactly like
an Executable node that returned nil: it is immediately marked completed
and its ready children are enqueued, rather than k entering the expanded
state.  The only residue of the expansion is the vacuous bookkeeping
entry subgraphStarters[k] = [], which no later lookup can reach (the
hypotheses say k is in worker custody at most once and no recorded
finisher points at k). -/
theorem empty_expansion_equals_nil_execution
    (fuel : Nat) (k : String) (st : WState)
    (hnd : st.processing.Nodup)
    (hnok : ∀ f S, alookup st.subgraphFinishers f = some S → S ≠ k) :
    (handleExpanded (fuel + 1) k emptyGraphData st).pending =
      (handleCompleted (fuel + 1) k st).pending ∧
    (handleExpanded (fuel + 1) k emptyGraphData st).processing =
      (handleCompleted (fuel + 1) k st).processing ∧
    (handleExpanded (fuel + 1) k emptyGraphData st).completed =
      (handleCompleted (fuel + 1) k st).completed ∧
    (handleExpanded (fuel + 1) k emptyGraphData st).errored =
      (handleCompleted (fuel + 1) k st).errored ∧
    (handleExpanded (fuel + 1) k emptyGraphData st).nodes =
      (handleCompleted (fuel + 1) k st).nodes ∧
    (handleExpanded (fuel + 1) k emptyGraphData st).subgraphFinishers =
      (handleCompleted (fuel + 1) k st).subgraphFinishers ∧
    (handleExpanded (fuel + 1) k emptyGraphData st).subgraphStarters =
      ainsert (handleCompleted (fuel + 1) k st).subgraphStarters k [] ∧
    k ∈ (handleExpanded (fuel + 1) k emptyGraphData st).completed := by
  have he : handleExpanded (fuel + 1) k emptyGraphData st =
      addPending (completedAux (fuel + 1) k (tweakSS k st)).2
        (completedAux (fuel + 1) k (tweakSS k st)).1 := rfl
  rw [completedAux_tweak k (fuel + 1) k st hnok] at he
  have hknm : k ∉ (completedAux (fuel + 1) k st).1.processing := by
    intro hmem
    have h1 : k ∈ st.processing.erase k :=
      completedAux_succ_processing fuel k st hmem
    rcases (List.Nodup.mem_erase_iff hnd).mp h1 with ⟨hne, _⟩
    exact hne rfl
  rw [he]
  refine ⟨rfl, ?_, rfl, rfl, rfl, rfl, rfl, ?_⟩
  · exact List.erase_of_not_mem hknm
  · exact completedAux_mem_self fuel k st

/-- Witness for C6's theorem at a state holding one processing expandable
key with no subgraph records. -/
theorem empty_expansion_equals_nil_execution_witness :
    "k" ∈ (handleExpanded 1 "k" emptyGraphData stPlain).completed :=
  (empty_expansion_equals_nil_execution 0 "k" stPlain (by decide)
    (by intro f S h; simp [stPlain, alookup] at h)).2.2.2.2.2.2.2

end GoGraph
